import Mathlib

/-!
Verification of the selection-manager core.

Shallow embedding, in Lean 4, of the selection-manager library
(`src/selection-manager.ts`, `src/patches.ts`, `src/types.ts`), together with
proofs and refutations of the claims of the specification about it.

Conventions:
* TypeScript `MaybeInfNumber = {type:"number",value} | {type:"infinity"}` becomes
  the inductive `MaybeInfNumber` below; plain JS numbers used as grid/cell
  coordinates become `Int`.
* `SMArea = {start:{row,col}, end:{row,col}}` becomes the structure `SMArea`
  with the `end` object flattened into the two fields `endRow`, `endCol`
  (`end` is a reserved word in Lean).
* Methods of the `SelectionManager` class that read `this.getNumRows()` /
  `this.getNumCols()` / `this.selections` become functions taking those values
  as explicit arguments.
* `deepEqual(a, b)` (`JSON.stringify` comparison in the source) becomes
  decidable structural equality, which coincides with it on these types.
* Code that throws becomes `Except String`.
-/


/-- Embeds `MaybeInfNumber` from `types.ts`: a finite JS number or Infinity. -/
inductive MaybeInfNumber where
  | num (value : Int)
  | inf
  deriving DecidableEq, Repr

/-- A concrete grid cell `{row, col}`. -/
structure Cell where
  row : Int
  col : Int
  deriving DecidableEq, Repr

/-- Embeds `SMArea` from `types.ts`: `start` is always finite, the inclusive
`end` bounds may be infinite.  In the source, `end` is a nested object; here it is
flattened into the fields `endRow` / `endCol`. -/
structure SMArea where
  start : Cell
  endRow : MaybeInfNumber
  endCol : MaybeInfNumber
  deriving DecidableEq, Repr

namespace SelMgr

open MaybeInfNumber

/-- Embeds `SelectionManager.min(a: number, b: MaybeInfNumber): number`. -/
def smin (a : Int) (b : MaybeInfNumber) : Int :=
  match b with
  | .inf => a
  | .num v => Min.min a v

/-- Embeds `SelectionManager.max(a: number, b: MaybeInfNumber): MaybeInfNumber`. -/
def smax (a : Int) (b : MaybeInfNumber) : MaybeInfNumber :=
  match b with
  | .inf => .inf
  | .num v => .num (Max.max a v)

/-- Embeds `SelectionManager.minMaybeInf`. -/
def minMaybeInf (a b : MaybeInfNumber) : MaybeInfNumber :=
  match a, b with
  | .inf, .inf => .inf
  | a, .inf => a
  | .inf, b => b
  | .num x, .num y => .num (Min.min x y)

/-- Embeds `SelectionManager.maxMaybeInf`. -/
def maxMaybeInf (a b : MaybeInfNumber) : MaybeInfNumber :=
  match a with
  | .inf => .inf
  | .num x =>
    match b with
    | .inf => .inf
    | .num y => .num (Max.max x y)

/-- Embeds `SelectionManager.equals`: same variant and, for numbers, same value. -/
def equals (a b : MaybeInfNumber) : Bool :=
  match a, b with
  | .num x, .num y => decide (x = y)
  | .inf, .inf => true
  | _, _ => false

/-- Embeds `SelectionManager.lt` (`a < b`): infinity is never below anything,
and strictly above every number. -/
def lt (a b : MaybeInfNumber) : Bool :=
  match a, b with
  | .inf, _ => false
  | .num _, .inf => true
  | .num x, .num y => decide (x < y)

/-- Embeds `SelectionManager.lte`. -/
def lte (a b : MaybeInfNumber) : Bool :=
  lt a b || equals a b

/-- Embeds `SelectionManager.gt` (`a > b`): `!equals && !lt`. -/
def gt (a b : MaybeInfNumber) : Bool :=
  !equals a b && !lt a b

/-- Embeds `SelectionManager.gte`. -/
def gte (a b : MaybeInfNumber) : Bool :=
  gt a b || equals a b

/-- Embeds `SelectionManager.normalizeEndBound`: an infinite end bound becomes
`tableSize - 1` when the table is finite, otherwise stays infinite. -/
def normalizeEndBound (endBound tableSize : MaybeInfNumber) : MaybeInfNumber :=
  match endBound with
  | .inf =>
    match tableSize with
    | .inf => .inf
    | .num v => .num (v - 1)
  | b => b

/-- Embeds `SelectionManager.cellInSelection`: normalize the area min/max per
axis, normalize infinite ends against the grid sizes `numRows`/`numCols`, then
test containment. -/
def cellInSelection (numRows numCols : MaybeInfNumber) (cell : Cell)
    (selection : SMArea) : Bool :=
  let startRow := smin selection.start.row selection.endRow
  let startCol := smin selection.start.col selection.endCol
  let endRow := smax selection.start.row selection.endRow
  let endCol := smax selection.start.col selection.endCol
  let actualEndRow := normalizeEndBound endRow numRows
  let actualEndCol := normalizeEndBound endCol numCols
  decide (cell.row ≥ startRow) &&
    (match actualEndRow with | .inf => true | .num v => decide (cell.row ≤ v)) &&
    decide (cell.col ≥ startCol) &&
    (match actualEndCol with | .inf => true | .num v => decide (cell.col ≤ v))

/-- Grid-independent cell set of an area: min/max-normalized inclusive bounds,
with an infinite end meaning unbounded on that axis.  This is
`cellInSelection` with both grid sizes infinite, and is the cell-set notion the
pure geometry (`subtractSelection`) is measured against. -/
def pureCellIn (r c : Int) (a : SMArea) : Bool :=
  decide (r ≥ smin a.start.row a.endRow) &&
    (match smax a.start.row a.endRow with | .inf => true | .num v => decide (r ≤ v)) &&
    decide (c ≥ smin a.start.col a.endCol) &&
    (match smax a.start.col a.endCol with | .inf => true | .num v => decide (c ≤ v))

/-- Embeds `SelectionManager.isSelected`: out-of-grid cells are never selected;
otherwise some committed selection must contain the cell. -/
def isSelected (numRows numCols : MaybeInfNumber) (selections : List SMArea)
    (cell : Cell) : Bool :=
  let outOfBounds :=
    decide (cell.row < 0) || decide (cell.col < 0) ||
      (match numRows with | .inf => false | .num v => decide (cell.row ≥ v)) ||
      (match numCols with | .inf => false | .num v => decide (cell.col ≥ v))
  if outOfBounds then false
  else selections.any (fun s => cellInSelection numRows numCols cell s)

/-- The inclusive integer range `[lo, hi]` as a list (empty when `lo > hi`);
models a JS `for (let i = lo; i <= hi; i++)` loop. -/
def intRange (lo hi : Int) : List Int :=
  (List.range (hi + 1 - lo).toNat).map (fun (k : Nat) => lo + (k : Int))

/-- Embeds `SelectionManager.getCellsWithData`: throws on an infinite end
bound, otherwise enumerates the cells of the two nested `for` loops
`row = start.row .. end.row.value`, `col = start.col .. end.col.value`
(no min/max normalization is applied). -/
def getCellsWithData (area : SMArea) : Except String (List Cell) :=
  match area.endRow, area.endCol with
  | .inf, _ => .error "Cannot iterate over infinite selections"
  | _, .inf => .error "Cannot iterate over infinite selections"
  | .num er, .num ec =>
    .ok ((intRange area.start.row er).flatMap
      (fun r => (intRange area.start.col ec).map (fun c => ⟨r, c⟩)))

/-- Embeds `SelectionManager.subtractSelection`: rectangle difference
producing up to four remainder bands (top, bottom, left, right), pushed in
that order.  In the source the two `throw new Error("Should not be possible to
remove an infinite area")` branches are guarded by `gt _ removeMax` with
`removeMax` infinite, and `gt x inf` is always `false`, so they are
unreachable; they are embedded as `[]`. -/
def subtractSelection (original toRemove : SMArea) : List SMArea :=
  let origMinRow := smin original.start.row original.endRow
  let origMaxRow := smax original.start.row original.endRow
  let origMinCol := smin original.start.col original.endCol
  let origMaxCol := smax original.start.col original.endCol
  let removeMinRow := smin toRemove.start.row toRemove.endRow
  let removeMaxRow := smax toRemove.start.row toRemove.endRow
  let removeMinCol := smin toRemove.start.col toRemove.endCol
  let removeMaxCol := smax toRemove.start.col toRemove.endCol
  let top : List SMArea :=
    if origMinRow < removeMinRow then
      [⟨⟨origMinRow, origMinCol⟩, .num (smin (removeMinRow - 1) origMaxRow),
        origMaxCol⟩]
    else []
  let bottom : List SMArea :=
    if gt origMaxRow removeMaxRow then
      match removeMaxRow with
      | .inf => []
      | .num v =>
        [⟨⟨Max.max origMinRow (v + 1), origMinCol⟩, origMaxRow, origMaxCol⟩]
    else []
  let leftPiece : List SMArea :=
    if origMinCol < removeMinCol then
      let topRow := Max.max origMinRow removeMinRow
      let bottomRow := minMaybeInf origMaxRow removeMaxRow
      if lte (.num topRow) bottomRow then
        [⟨⟨topRow, origMinCol⟩, bottomRow,
          .num (smin (removeMinCol - 1) origMaxCol)⟩]
      else []
    else []
  let rightPiece : List SMArea :=
    if gt origMaxCol removeMaxCol then
      let topRow := Max.max origMinRow removeMinRow
      let bottomRow := minMaybeInf origMaxRow removeMaxRow
      if lte (.num topRow) bottomRow then
        match removeMaxCol with
        | .inf => []
        | .num v =>
          [⟨⟨topRow, Max.max origMinCol (v + 1)⟩, bottomRow, origMaxCol⟩]
      else []
    else []
  top ++ bottom ++ leftPiece ++ rightPiece

end SelMgr

/-- Min/max-normalized copy of an area: start at the per-axis minimum, end at
the per-axis maximum.  `subtractSelection` and `pureCellIn` only consult
`smin`/`smax` of their inputs, so both are invariant under it. -/
def sortArea (a : SMArea) : SMArea :=
  ⟨⟨SelMgr.smin a.start.row a.endRow, SelMgr.smin a.start.col a.endCol⟩,
    SelMgr.smax a.start.row a.endRow, SelMgr.smax a.start.col a.endCol⟩

/-- Fill direction from `types.ts`. -/
inductive FillDirection where
  | up | down | left | right
  deriving DecidableEq, Repr

/-- The `eventType` of a fill interaction (`FillEvent["type"]`). -/
inductive FillKind where
  | extend | shrink
  deriving DecidableEq, Repr

/-- The non-fill interaction kinds of `IsSelecting`. -/
inductive SelKind where
  | drag | add | remove | shift
  deriving DecidableEq, Repr

/-- Embeds `IsSelecting` from `types.ts`: no interaction, a basic drag-style
interaction over an area, or a fill interaction with direction and kind. -/
inductive IsSelecting where
  | none
  | basic (kind : SelKind) (area : SMArea)
  | fill (direction : FillDirection) (eventType : FillKind) (area : SMArea)
  deriving DecidableEq, Repr

namespace SelMgr

/-- Embeds `SelectionManager.getFillHandleSelection`.  In the source the base
rectangle is obtained from `getFillHandleBaseSelection()` (returning
`undefined` aborts); here the non-`undefined` base is a parameter.  The
unused `start` parameter of the source is dropped. -/
def getFillHandleSelection (numRows numCols : MaybeInfNumber)
    (baseSelection : SMArea) (currentCell : Cell) : IsSelecting :=
  let minCol := Min.min currentCell.col
    (smin baseSelection.start.col baseSelection.endCol)
  let minRow := Min.min currentCell.row
    (smin baseSelection.start.row baseSelection.endRow)
  let maxRow := smax currentCell.row
    (smax baseSelection.start.row baseSelection.endRow)
  let maxCol := smax currentCell.col
    (smax baseSelection.start.col baseSelection.endCol)
  match baseSelection.endRow with
  | .inf =>
    .fill (if minCol < baseSelection.start.col then .left else .right) .extend
      ⟨⟨baseSelection.start.row, minCol⟩, maxRow, baseSelection.endCol⟩
  | .num erv =>
    match baseSelection.endCol with
    | .inf =>
      .fill (if minRow < baseSelection.start.row then .up else .down) .extend
        ⟨⟨minRow, baseSelection.start.col⟩, maxRow, baseSelection.endCol⟩
    | .num ecv =>
      let rowDiff := (currentCell.row - erv).natAbs
      let colDiff := (currentCell.col - ecv).natAbs
      if rowDiff ≥ colDiff then
        if cellInSelection numRows numCols currentCell baseSelection then
          .fill .up .shrink
            ⟨⟨minRow, baseSelection.start.col⟩, .num currentCell.row,
              baseSelection.endCol⟩
        else
          .fill (if minRow < baseSelection.start.row then .up else .down)
            .extend
            ⟨⟨minRow, baseSelection.start.col⟩, maxRow, baseSelection.endCol⟩
      else
        if cellInSelection numRows numCols currentCell baseSelection then
          .fill .left .shrink
            ⟨⟨baseSelection.start.row, minCol⟩, baseSelection.endRow,
              .num currentCell.col⟩
        else
          .fill (if minCol < baseSelection.start.col then .left else .right)
            .extend
            ⟨⟨baseSelection.start.row, minCol⟩, baseSelection.endRow, maxCol⟩

end SelMgr

/-- A grid axis. -/
inductive Axis where
  | row | col
  deriving DecidableEq, Repr

/-- The axis a fill direction moves along. -/
def axisOfDir : FillDirection → Axis
  | .up => .row
  | .down => .row
  | .left => .col
  | .right => .col

/-- The extension axis of a fill interaction, `none` for non-fill states. -/
def fillAxisOf : IsSelecting → Option Axis
  | .fill d _ _ => some (axisOfDir d)
  | _ => none

/-- Modelled from the words of the claim (C6): the axis of extension is the column
axis when the base has an infinite row end, the row axis when it has an
infinite column end, and otherwise the axis with the larger absolute delta
from the anchor corner (`base.end`) to the current cell, ties favoring the
row axis. -/
def claimedFillAxis (base : SMArea) (currentCell : Cell) : Axis :=
  match base.endRow with
  | .inf => .col
  | .num er =>
    match base.endCol with
    | .inf => .row
    | .num ec =>
      if (currentCell.row - er).natAbs ≥ (currentCell.col - ec).natAbs then
        .row
      else .col

/-- An opposite-axis interval gathered by `getIntervalsForIndex`:
`{start: number, end: MaybeInfNumber}` (the `end` field is named `stop`). -/
structure Ivl where
  start : Int
  stop : MaybeInfNumber
  deriving DecidableEq, Repr

namespace SelMgr

/-- Embeds `SelectionManager.getIntervalsForIndex`: for every selection
covering the given row (resp. column), collect its normalized opposite-axis
interval. -/
def getIntervalsForIndex (numRows numCols : MaybeInfNumber)
    (selections : List SMArea) (index : Int) (axis : Axis) : List Ivl :=
  selections.filterMap (fun selection =>
    let startRow := smin selection.start.row selection.endRow
    let endRow := smax selection.start.row selection.endRow
    let startCol := smin selection.start.col selection.endCol
    let endCol := smax selection.start.col selection.endCol
    let normalizedEndRow := normalizeEndBound endRow numRows
    let normalizedEndCol := normalizeEndBound endCol numCols
    match axis with
    | .row =>
      if decide (startRow ≤ index) &&
          (match normalizedEndRow with
            | .inf => true
            | .num v => decide (index ≤ v)) then
        some ⟨startCol, normalizedEndCol⟩
      else none
    | .col =>
      if decide (startCol ≤ index) &&
          (match normalizedEndCol with
            | .inf => true
            | .num v => decide (index ≤ v)) then
        some ⟨startRow, normalizedEndRow⟩
      else none)

/-- Merge step of `SelectionManager.mergeIntervals`: fold over the sorted
interval list, merging the running last interval with the next one when the
last is infinite or the next starts at most one past the end of the last. -/
def mergeLoop (last : Ivl) : List Ivl → List Ivl
  | [] => [last]
  | cur :: rest =>
    if (match last.stop with
        | .inf => true
        | .num v => decide (cur.start ≤ v + 1)) then
      mergeLoop ⟨last.start, maxMaybeInf cur.stop last.stop⟩ rest
    else
      last :: mergeLoop cur rest

/-- Embeds `SelectionManager.mergeIntervals`: sort by interval start, then
merge overlapping or adjacent intervals.  The source uses JS stable
`Array.sort` with comparator `a.start - b.start`; it is modeled with
insertion sort on `start ≤ start`, which also yields a by-start-sorted
permutation of the input. -/
def mergeIntervals (intervals : List Ivl) : List Ivl :=
  match List.insertionSort (fun a b => a.start ≤ b.start) intervals with
  | [] => []
  | x :: xs => mergeLoop x xs

/-- Embeds `SelectionManager.intervalsSpanFullRange`: exactly one merged
interval, starting at 0 and reaching the axis limit (`gte end (max-1)` for a
finite limit, an infinite end for an infinite limit). -/
def intervalsSpanFullRange (intervals : List Ivl)
    (maxValue : MaybeInfNumber) : Bool :=
  match intervals with
  | [interval] =>
    match maxValue with
    | .inf =>
      decide (interval.start = 0) &&
        (match interval.stop with | .inf => true | .num _ => false)
    | .num v =>
      decide (interval.start = 0) && gte interval.stop (.num (v - 1))
  | _ => false

/-- Embeds `SelectionManager.isWholeRowSelected`. -/
def isWholeRowSelected (numRows numCols : MaybeInfNumber)
    (selections : List SMArea) (index : Int) : Bool :=
  intervalsSpanFullRange
    (mergeIntervals (getIntervalsForIndex numRows numCols selections index .row))
    numCols

end SelMgr

/-- Point coverage: `c` is inside some interval of the list. -/
def coversPt (l : List Ivl) (c : Int) : Prop :=
  ∃ iv ∈ l, iv.start ≤ c ∧
    (match iv.stop with | .inf => True | .num v => c ≤ v)

/-- Embeds `IsEditing` from `types.ts`. -/
inductive IsEditing where
  | none
  | cell (row col : Int) (initialValue : Option String)
  deriving DecidableEq, Repr

/-- Embeds `IsHovering` from `types.ts` (`headerType` reuses `Axis` for
`"row" | "col"`). -/
inductive IsHovering where
  | none
  | cell (row col : Int)
  | group (group : SMArea)
  | header (index : Int) (headerType : Axis)
  deriving DecidableEq, Repr

/-- Embeds `SelectionManagerState` from `types.ts`. -/
structure SelectionManagerState where
  hasFocus : Bool
  selections : List SMArea
  isSelecting : IsSelecting
  isEditing : IsEditing
  isHovering : IsHovering
  deriving DecidableEq, Repr

/-- The five root fields a patch path can address. -/
inductive RootField where
  | hasFocus | selections | isSelecting | isEditing | isHovering
  deriving DecidableEq, Repr

/-- Embeds the patch-path string grammar of `types.ts`/`patches.ts`:
a root field name, an indexed selections entry, or the selections append form. -/
inductive PatchPath where
  | root (f : RootField)
  | selIdx (i : Nat)
  | selAppend
  deriving DecidableEq, Repr

/-- A patch `value`: one of the five root-field value shapes
(`boolean | SMArea[] | IsSelecting | IsEditing | IsHovering`). -/
inductive PatchValue where
  | bool (b : Bool)
  | areas (l : List SMArea)
  | selecting (s : IsSelecting)
  | editing (e : IsEditing)
  | hovering (h : IsHovering)
  deriving DecidableEq, Repr

/-- Embeds `StatePatch` from `types.ts`. -/
inductive StatePatch where
  | replace (path : PatchPath) (value : PatchValue)
  | add (path : PatchPath) (value : SMArea)
  | remove (path : PatchPath)
  | test (path : PatchPath) (value : PatchValue)
  deriving DecidableEq, Repr

namespace createPatch

/-! Embeds the `createPatch` helper object of `patches.ts`. -/
def setHasFocus (value : Bool) : StatePatch :=
  .replace (.root .hasFocus) (.bool value)

def setSelections (selections : List SMArea) : StatePatch :=
  .replace (.root .selections) (.areas selections)

def addSelection (selection : SMArea) (index : Option Nat) : StatePatch :=
  .add (match index with | some i => .selIdx i | none => .selAppend) selection

def removeSelection (index : Nat) : StatePatch :=
  .remove (.selIdx index)

def clearSelections : StatePatch :=
  .replace (.root .selections) (.areas [])

def setIsSelecting (value : IsSelecting) : StatePatch :=
  .replace (.root .isSelecting) (.selecting value)

def setIsEditing (value : IsEditing) : StatePatch :=
  .replace (.root .isEditing) (.editing value)

def setIsHovering (value : IsHovering) : StatePatch :=
  .replace (.root .isHovering) (.hovering value)

end createPatch

namespace SelMgr

/-- The index-wise `prevSelections.every((sel, i) => deepEqual(sel,
nextSelections[i]))` check of the single-append branch of `createPatches`. -/
def prefixMatches : List SMArea → List SMArea → Bool
  | [], _ => true
  | _ :: _, [] => false
  | a :: as, b :: bs => decide (a = b) && prefixMatches as bs

/-- The removed-index search of the single-removal branch of `createPatches`:
first index of `prev` whose element appears nowhere in `next`. -/
def findRemovedIndex (prev next : List SMArea) : Option Nat :=
  prev.findIdx? (fun pe => !(next.any (fun sel => decide (sel = pe))))

/-- The re-alignment check of the single-removal branch of `createPatches`:
every element of `next` matches `prev` once the removal at `removedIndex` is
accounted for. -/
def removalAligns (prev next : List SMArea) (removedIndex : Nat) : Bool :=
  (List.range next.length).all (fun i =>
    decide (next[i]? = prev[if i < removedIndex then i else i + 1]?))

/-- The `selections` branch body of `createPatches` (entered when the two
selection lists differ). -/
def selectionsDiffPatches (prev next : List SMArea) : List StatePatch :=
  if next.length = 0 ∧ prev.length > 0 then
    [createPatch.clearSelections]
  else if next.length = prev.length + 1 ∧ prefixMatches prev next = true then
    match next[next.length - 1]? with
    | some lastSelection => [createPatch.addSelection lastSelection none]
    | none => []
  else if next.length + 1 = prev.length ∧ prev.length > 0 then
    match findRemovedIndex prev next with
    | some removedIndex =>
      if removalAligns prev next removedIndex then
        [createPatch.removeSelection removedIndex]
      else
        [createPatch.setSelections next]
    | none => [createPatch.setSelections next]
  else
    [createPatch.setSelections next]

/-- Embeds `createPatches` from `patches.ts`: at most one patch per root
field, in the order hasFocus, selections, isSelecting, isEditing, isHovering,
with the granular selections classification. -/
def createPatches (prevState nextState : SelectionManagerState) :
    List StatePatch :=
  (if prevState.hasFocus = nextState.hasFocus then []
    else [createPatch.setHasFocus nextState.hasFocus]) ++
  (if prevState.selections = nextState.selections then []
    else selectionsDiffPatches prevState.selections nextState.selections) ++
  (if prevState.isSelecting = nextState.isSelecting then []
    else [createPatch.setIsSelecting nextState.isSelecting]) ++
  (if prevState.isEditing = nextState.isEditing then []
    else [createPatch.setIsEditing nextState.isEditing]) ++
  (if prevState.isHovering = nextState.isHovering then []
    else [createPatch.setIsHovering nextState.isHovering])

/-- The result of `getValue` in `patches.ts`: a root-field value, a single
selection element, or JS `undefined` for a path that resolves to nothing. -/
inductive LookupValue where
  | val (v : PatchValue)
  | area (a : SMArea)
  | undefinedVal
  deriving DecidableEq, Repr

/-- Embeds `getValue` from `patches.ts` over the path grammar. -/
def getValue (state : SelectionManagerState) : PatchPath → LookupValue
  | .root .hasFocus => .val (.bool state.hasFocus)
  | .root .selections => .val (.areas state.selections)
  | .root .isSelecting => .val (.selecting state.isSelecting)
  | .root .isEditing => .val (.editing state.isEditing)
  | .root .isHovering => .val (.hovering state.isHovering)
  | .selIdx i =>
    match state.selections[i]? with
    | some a => .area a
    | none => .undefinedVal
  | .selAppend => .undefinedVal

/-- Models `deepEqual(currentValue, patch.value)` of the `test` op: a single
selection object or `undefined` never stringify-equals any of the root-field
value shapes (arrays and objects with a `type` tag). -/
def lookupEq : LookupValue → PatchValue → Bool
  | .val v, w => decide (v = w)
  | .area _, _ => false
  | .undefinedVal, _ => false

/-- Embeds `setValue` from `patches.ts`.  Paths below the root throw
`Unsupported path`.  The source casts `value` to the field type without a
runtime check; assigning a value of the wrong shape would produce a state
outside the `SelectionManagerState` type, which is unrepresentable here and
is modeled as an error (`createPatches` output never hits it). -/
def setValue (state : SelectionManagerState) (path : PatchPath)
    (value : PatchValue) : Except String SelectionManagerState :=
  match path with
  | .root .hasFocus =>
    match value with
    | .bool b => .ok { state with hasFocus := b }
    | _ => .error "setValue: value shape does not fit hasFocus"
  | .root .selections =>
    match value with
    | .areas l => .ok { state with selections := l }
    | _ => .error "setValue: value shape does not fit selections"
  | .root .isSelecting =>
    match value with
    | .selecting v => .ok { state with isSelecting := v }
    | _ => .error "setValue: value shape does not fit isSelecting"
  | .root .isEditing =>
    match value with
    | .editing v => .ok { state with isEditing := v }
    | _ => .error "setValue: value shape does not fit isEditing"
  | .root .isHovering =>
    match value with
    | .hovering v => .ok { state with isHovering := v }
    | _ => .error "setValue: value shape does not fit isHovering"
  | .selIdx _ => .error "Unsupported path"
  | .selAppend => .error "Unsupported path"

/-- JS `array.splice(index, 0, value)`: insert at `index`, clamping to the
array length (appends when `index` is past the end). -/
def spliceInsert {α : Type} : Nat → α → List α → List α
  | _, v, [] => [v]
  | 0, v, l => v :: l
  | n + 1, v, a :: l => a :: spliceInsert n v l

/-- One step of `applyPatches` from `patches.ts`: apply a single patch. -/
def applyPatch (state : SelectionManagerState) :
    StatePatch → Except String SelectionManagerState
  | .replace path value => setValue state path value
  | .add path value =>
    match path with
    | .selAppend => .ok { state with selections := state.selections ++ [value] }
    | .selIdx i =>
      .ok { state with selections := spliceInsert i value state.selections }
    | .root _ => .error "Unsupported add path"
  | .remove path =>
    match path with
    | .selIdx i => .ok { state with selections := state.selections.eraseIdx i }
    | _ => .error "Unsupported remove path"
  | .test path value =>
    if lookupEq (getValue state path) value then .ok state
    else .error "Test failed"

/-- Embeds `applyPatches` from `patches.ts`: sequential, order-preserving
application; any unsupported path/op or failed `test` aborts with an error. -/
def applyPatches (state : SelectionManagerState) (patches : List StatePatch) :
    Except String SelectionManagerState :=
  patches.foldlM applyPatch state

end SelMgr

/-- The root field a patch path addresses (`selections/<i>` and the append
path address the `selections` array). -/
def pathRoot : PatchPath → RootField
  | .root f => f
  | .selIdx _ => .selections
  | .selAppend => .selections

/-- The root field a patch addresses. -/
def patchRootField : StatePatch → RootField
  | .replace p _ => pathRoot p
  | .add p _ => pathRoot p
  | .remove p => pathRoot p
  | .test p _ => pathRoot p

namespace SelMgr

/-- Embeds the `Escape` branch of `SelectionManager.handleKeyDown` (together
with the `cancelEditing` call it delegates to when a cell is being edited),
as a pure transition on the state fields.  The returned flag records whether
`onUpdate` was called (i.e. whether subscribers were notified). -/
def escapeKeyDown (s : SelectionManagerState) : SelectionManagerState × Bool :=
  match s.isEditing with
  | .cell _ _ _ => ({ s with isEditing := .none }, true)
  | .none =>
    let shouldUpdate :=
      decide (s.isSelecting ≠ IsSelecting.none) ||
        decide (s.selections ≠ []) ||
        decide (s.isEditing ≠ IsEditing.none) ||
        s.hasFocus
    let cleared := { s with isSelecting := .none, selections := [], isEditing := .none, hasFocus := false }
    (cleared, shouldUpdate)

/-- The relevant per-instance fields of the `SelectionManager` class for the
controlled-mode protocol: live state, snapshot (`prevState`), the accumulated
patch list, and the `controlled` flag. -/
structure Manager where
  state : SelectionManagerState
  prevState : SelectionManagerState
  patches : List StatePatch
  controlled : Bool
  deriving DecidableEq, Repr

/-- Embeds `SelectionManager.setState` applied to a complete state object (as
in the rollback `this.setState(this.prevState)` of `onUpdate`).  The source
assigns `hasFocus`, `selections`, `isSelecting` and `isHovering` but omits
`isEditing`, which therefore keeps its live value. -/
def setStateFull (m : Manager) (s : SelectionManagerState) : Manager :=
  { m with state :=
    { hasFocus := s.hasFocus
      selections := s.selections
      isSelecting := s.isSelecting
      isHovering := s.isHovering
      isEditing := m.state.isEditing } }

/-- What a subscriber channel receives on an update: `nextStateListeners` get
a committed state, `requestedStateListeners` get a requested (prospective)
state. -/
inductive Notice where
  | committed (s : SelectionManagerState)
  | requested (s : SelectionManagerState)
  deriving DecidableEq, Repr

/-- Embeds `SelectionManager.onUpdate`: in controlled mode, revert the live
state via `setState(prevState)`, extend the accumulated patch list with the
diff of the snapshot against the mutated state, and hand
`applyPatches(prevState, patches)` to the requested-state listeners;
in uncontrolled mode, notify the next-state listeners with the new state. -/
def onUpdate (m : Manager) : Except String (Manager × Notice) :=
  let nextState := m.state
  if m.controlled then
    let m1 := setStateFull m m.prevState
    let ps := m1.patches ++ createPatches m.prevState nextState
    match applyPatches m.prevState ps with
    | .ok batchedNextState => .ok ({ m1 with patches := ps }, .requested batchedNextState)
    | .error e => .error e
  else
    .ok (m, .committed nextState)

/-- Embeds `SelectionManager.willMaybeUpdate`: snapshot the current state. -/
def willMaybeUpdate (m : Manager) : Manager :=
  { m with prevState := m.state }

/-- Embeds `SelectionManager.editCell`: snapshot, then set `isEditing` and
fire `onUpdate` unless the same cell with the same initial value is already
being edited. -/
def editCell (m : Manager) (row col : Int) (initialValue : Option String) :
    Except String (Manager × Option Notice) :=
  let m := willMaybeUpdate m
  let shouldUpdate :=
    match m.state.isEditing with
    | .cell r c v => decide (¬(r = row ∧ c = col ∧ v = initialValue))
    | .none => true
  if shouldUpdate then
    let m' := { m with state := { m.state with isEditing := .cell row col initialValue } }
    match onUpdate m' with
    | .ok (m'', n) => .ok (m'', some n)
    | .error e => .error e
  else
    .ok (m, none)

end SelMgr

/-- A fresh controlled manager with all-default state. -/
def mgr0 : SelMgr.Manager :=
  ⟨⟨false, [], .none, .none, .none⟩, ⟨false, [], .none, .none, .none⟩, [], true⟩

namespace SelMgr

/-- One selection as normalized by `getNonOverlappingSelections` on a finite
grid: min/max per axis, with infinite ends mapped to the last grid index. -/
structure NormSel where
  startRow : Int
  endRow : Int
  startCol : Int
  endCol : Int
  deriving DecidableEq, Repr

/-- The per-selection normalization step of `getNonOverlappingSelections`,
specialized to a finite grid (`getActualEndRow()`/`getActualEndCol()` return
`numRows - 1`/`numCols - 1`). -/
def normalizeForDecomp (numRows numCols : Int) (selection : SMArea) : NormSel where
  startRow := smin selection.start.row selection.endRow
  endRow :=
    match smax selection.start.row selection.endRow with
    | .inf => numRows - 1
    | .num v => v
  startCol := smin selection.start.col selection.endCol
  endCol :=
    match smax selection.start.col selection.endCol with
    | .inf => numCols - 1
    | .num v => v

/-- The sorted distinct boundary list: models collecting values into a JS
`Set` and sorting `Array.from(set)` (on a finite grid every boundary is a
number, so the `"INF"` sentinel never occurs and the comparator is numeric
order). -/
def sortedBoundaries (l : List Int) : List Int :=
  l.dedup.insertionSort (fun a b => a ≤ b)

/-- The consecutive-boundary pairs scanned by the nested loops
(`sortedRows[i], sortedRows[i+1]`). -/
def adjPairs (l : List Int) : List (Int × Int) :=
  l.zip l.tail

/-- The cover check of `getNonOverlappingSelections` for the candidate region
between boundaries `rp.1, rp.2` (rows) and `cp.1, cp.2` (cols), on a finite
grid: region start/end are the inclusive `[rp.1, rp.2 - 1] × [cp.1, cp.2 - 1]`
and `lte`/`gte` are numeric comparisons. -/
def coveredBy (sels : List NormSel) (rp cp : Int × Int) : Bool :=
  sels.any (fun s =>
    decide (s.startRow ≤ rp.1) && decide (rp.2 - 1 ≤ s.endRow) &&
      decide (s.startCol ≤ cp.1) && decide (cp.2 - 1 ≤ s.endCol))

/-- The sorted distinct row boundaries of `getNonOverlappingSelections`:
every normalized start row and every normalized end row + 1. -/
def decompRows (numRows numCols : Int) (selections : List SMArea) : List Int :=
  sortedBoundaries
    ((selections.map (normalizeForDecomp numRows numCols)).flatMap
      (fun s => [s.startRow, s.endRow + 1]))

/-- The sorted distinct column boundaries of `getNonOverlappingSelections`. -/
def decompCols (numRows numCols : Int) (selections : List SMArea) : List Int :=
  sortedBoundaries
    ((selections.map (normalizeForDecomp numRows numCols)).flatMap
      (fun s => [s.startCol, s.endCol + 1]))

/-- Embeds `SelectionManager.getNonOverlappingSelections`, specialized to a
finite grid (the setting of the claim): with `getNumRows()`/`getNumCols()` finite
every normalized end is a number, so the `"INF"` sentinel branches and the
`Invalid regionStartRow/Col` throws in the source are dead.  Coordinate
compression: collect start and end+1 boundaries per axis, sort them, and keep
every candidate region between consecutive boundaries that is covered by some
normalized selection. -/
def getNonOverlappingSelectionsFin (numRows numCols : Int)
    (selections : List SMArea) : List SMArea :=
  if selections.length = 0 then []
  else
    (adjPairs (decompRows numRows numCols selections)).flatMap (fun rp =>
      ((adjPairs (decompCols numRows numCols selections)).filter
          (fun cp => coveredBy
            (selections.map (normalizeForDecomp numRows numCols)) rp cp)).map
        (fun cp => ⟨⟨rp.1, cp.1⟩, .num (rp.2 - 1), .num (cp.2 - 1)⟩))

end SelMgr

theorem smin_num (a v : Int) : SelMgr.smin a (.num v) = Min.min a v := rfl

theorem smin_inf (a : Int) : SelMgr.smin a .inf = a := rfl

theorem smax_num (a v : Int) : SelMgr.smax a (.num v) = .num (Max.max a v) := rfl

theorem smax_inf (a : Int) : SelMgr.smax a .inf = .inf := rfl

theorem gt_num_num (x y : Int) : SelMgr.gt (.num x) (.num y) = decide (y < x) := by
  apply Bool.eq_iff_iff.mpr
  simp only [SelMgr.gt, SelMgr.equals, SelMgr.lt, Bool.and_eq_true,
    Bool.not_eq_true', decide_eq_false_iff_not, decide_eq_true_eq]
  omega

theorem gt_inf_num (y : Int) : SelMgr.gt .inf (.num y) = true := rfl

theorem gt_num_inf (x : Int) : SelMgr.gt (.num x) .inf = false := rfl

theorem gt_inf_inf : SelMgr.gt .inf .inf = false := rfl

theorem lte_num_num (x y : Int) : SelMgr.lte (.num x) (.num y) = decide (x ≤ y) := by
  apply Bool.eq_iff_iff.mpr
  simp only [SelMgr.lte, SelMgr.equals, SelMgr.lt, Bool.or_eq_true,
    decide_eq_true_eq]
  omega

theorem lte_num_inf (x : Int) : SelMgr.lte (.num x) .inf = true := rfl

theorem lte_inf_num (y : Int) : SelMgr.lte .inf (.num y) = false := rfl

theorem lte_inf_inf : SelMgr.lte .inf .inf = true := rfl

theorem gte_num_num (x y : Int) : SelMgr.gte (.num x) (.num y) = decide (y ≤ x) := by
  apply Bool.eq_iff_iff.mpr
  simp only [SelMgr.gte, SelMgr.gt, SelMgr.equals, SelMgr.lt, Bool.or_eq_true,
    Bool.and_eq_true, Bool.not_eq_true', decide_eq_false_iff_not,
    decide_eq_true_eq]
  omega

theorem gte_inf_num (y : Int) : SelMgr.gte .inf (.num y) = true := rfl

theorem gte_num_inf (x : Int) : SelMgr.gte (.num x) .inf = false := rfl

theorem gte_inf_inf : SelMgr.gte .inf .inf = true := rfl

theorem minMaybeInf_num_num (x y : Int) :
    SelMgr.minMaybeInf (.num x) (.num y) = .num (Min.min x y) := rfl

theorem minMaybeInf_num_inf (x : Int) :
    SelMgr.minMaybeInf (.num x) .inf = .num x := rfl

theorem minMaybeInf_inf_num (y : Int) :
    SelMgr.minMaybeInf .inf (.num y) = .num y := rfl

theorem minMaybeInf_inf_inf : SelMgr.minMaybeInf .inf .inf = .inf := rfl

theorem any_if_singleton {α : Type} (c : Prop) [Decidable c] (x : α)
    (p : α → Bool) :
    ((if c then [x] else []).any p = true) ↔ (c ∧ p x = true) := by
  split_ifs with h <;> simp [h]

theorem any_if_if_singleton {α : Type} (c1 c2 : Prop) [Decidable c1]
    [Decidable c2] (x : α) (p : α → Bool) :
    ((if c1 then (if c2 then [x] else []) else []).any p = true) ↔
      (c1 ∧ c2 ∧ p x = true) := by
  by_cases h1 : c1
  · by_cases h2 : c2 <;> simp [h1, h2]
  · simp [h1]

theorem any_if_nil {α : Type} (c : Prop) [Decidable c] (p : α → Bool) :
    ((if c then ([] : List α) else []).any p = true) ↔ False := by
  split_ifs <;> simp

theorem any_if_if_nil {α : Type} (c1 c2 : Prop) [Decidable c1] [Decidable c2]
    (p : α → Bool) :
    ((if c1 then (if c2 then ([] : List α) else []) else []).any p = true) ↔
      False := by
  split_ifs <;> simp

theorem pureCellIn_num_num (r c sr sc er ec : Int) :
    SelMgr.pureCellIn r c ⟨⟨sr, sc⟩, .num er, .num ec⟩ = true ↔
      (Min.min sr er ≤ r ∧ r ≤ Max.max sr er ∧
        Min.min sc ec ≤ c ∧ c ≤ Max.max sc ec) := by
  simp only [SelMgr.pureCellIn, smin_num, smax_num, Bool.and_eq_true,
    decide_eq_true_eq, ge_iff_le]
  tauto

theorem pureCellIn_num_inf (r c sr sc er : Int) :
    SelMgr.pureCellIn r c ⟨⟨sr, sc⟩, .num er, .inf⟩ = true ↔
      (Min.min sr er ≤ r ∧ r ≤ Max.max sr er ∧ sc ≤ c) := by
  simp only [SelMgr.pureCellIn, smin_num, smax_num, smin_inf, smax_inf,
    Bool.and_eq_true, decide_eq_true_eq, ge_iff_le, Bool.and_true]
  tauto

theorem pureCellIn_inf_num (r c sr sc ec : Int) :
    SelMgr.pureCellIn r c ⟨⟨sr, sc⟩, .inf, .num ec⟩ = true ↔
      (sr ≤ r ∧ Min.min sc ec ≤ c ∧ c ≤ Max.max sc ec) := by
  simp only [SelMgr.pureCellIn, smin_num, smax_num, smin_inf, smax_inf,
    Bool.and_eq_true, decide_eq_true_eq, ge_iff_le, Bool.and_true,
    Bool.true_and]
  tauto

theorem pureCellIn_inf_inf (r c sr sc : Int) :
    SelMgr.pureCellIn r c ⟨⟨sr, sc⟩, .inf, .inf⟩ = true ↔
      (sr ≤ r ∧ sc ≤ c) := by
  simp only [SelMgr.pureCellIn, smin_inf, smax_inf, Bool.and_eq_true,
    decide_eq_true_eq, ge_iff_le, Bool.and_true]
  try tauto

theorem smin_row_sortArea (a : SMArea) :
    SelMgr.smin (sortArea a).start.row (sortArea a).endRow =
      SelMgr.smin a.start.row a.endRow := by
  rcases a with ⟨⟨ar, ac⟩, aer, aec⟩
  cases aer <;> simp [sortArea, SelMgr.smin, SelMgr.smax]

theorem smin_col_sortArea (a : SMArea) :
    SelMgr.smin (sortArea a).start.col (sortArea a).endCol =
      SelMgr.smin a.start.col a.endCol := by
  rcases a with ⟨⟨ar, ac⟩, aer, aec⟩
  cases aec <;> simp [sortArea, SelMgr.smin, SelMgr.smax]

theorem smax_row_sortArea (a : SMArea) :
    SelMgr.smax (sortArea a).start.row (sortArea a).endRow =
      SelMgr.smax a.start.row a.endRow := by
  rcases a with ⟨⟨ar, ac⟩, aer, aec⟩
  cases aer <;> simp [sortArea, SelMgr.smin, SelMgr.smax]

theorem smax_col_sortArea (a : SMArea) :
    SelMgr.smax (sortArea a).start.col (sortArea a).endCol =
      SelMgr.smax a.start.col a.endCol := by
  rcases a with ⟨⟨ar, ac⟩, aer, aec⟩
  cases aec <;> simp [sortArea, SelMgr.smin, SelMgr.smax]

theorem subtract_sortArea (a b : SMArea) :
    SelMgr.subtractSelection (sortArea a) (sortArea b) =
      SelMgr.subtractSelection a b := by
  simp only [SelMgr.subtractSelection, smin_row_sortArea, smin_col_sortArea,
    smax_row_sortArea, smax_col_sortArea]

theorem pureCellIn_sortArea (r c : Int) (a : SMArea) :
    SelMgr.pureCellIn r c (sortArea a) = SelMgr.pureCellIn r c a := by
  simp only [SelMgr.pureCellIn, smin_row_sortArea, smin_col_sortArea,
    smax_row_sortArea, smax_col_sortArea]

set_option maxHeartbeats 3000000 in
/-- On min/max-sorted inputs, `subtractSelection` returns bands such that a cell lies in some returned
band iff it lies in the original and outside the removed area. -/
theorem subtract_cells_sorted (ar ac br bc : Int) (aer aec ber bec : MaybeInfNumber)
    (r c : Int)
    (s1 : ∀ v, aer = .num v → ar ≤ v) (s2 : ∀ v, aec = .num v → ac ≤ v)
    (s3 : ∀ v, ber = .num v → br ≤ v) (s4 : ∀ v, bec = .num v → bc ≤ v) :
    (SelMgr.subtractSelection ⟨⟨ar, ac⟩, aer, aec⟩ ⟨⟨br, bc⟩, ber, bec⟩).any
        (SelMgr.pureCellIn r c) = true ↔
      (SelMgr.pureCellIn r c ⟨⟨ar, ac⟩, aer, aec⟩ = true ∧
        SelMgr.pureCellIn r c ⟨⟨br, bc⟩, ber, bec⟩ = false) := by
  cases aer <;> cases aec <;> cases ber <;> cases bec
  all_goals
    try have t1 := s1 _ rfl
  all_goals
    try have t2 := s2 _ rfl
  all_goals
    try have t3 := s3 _ rfl
  all_goals
    try have t4 := s4 _ rfl
  all_goals
    rw [show ∀ x : Bool, (x = false) ↔ ¬ (x = true) by intro x; cases x <;> simp]
    simp only [SelMgr.subtractSelection, smin_num, smax_num, smin_inf,
      smax_inf, gt_num_num, gt_inf_num, gt_num_inf, gt_inf_inf, lte_num_num,
      lte_num_inf, lte_inf_num, lte_inf_inf, minMaybeInf_num_num,
      minMaybeInf_num_inf, minMaybeInf_inf_num, minMaybeInf_inf_inf,
      decide_eq_true_eq, List.any_append, Bool.or_eq_true, List.any_nil,
      any_if_singleton, any_if_if_singleton, any_if_nil, any_if_if_nil,
      or_false, false_or, true_and, and_true, pureCellIn_num_num,
      pureCellIn_num_inf, pureCellIn_inf_num, pureCellIn_inf_inf]
    try simp only [min_eq_left t1, max_eq_right t1]
    try simp only [min_eq_left t2, max_eq_right t2]
    try simp only [min_eq_left t3, max_eq_right t3]
    try simp only [min_eq_left t4, max_eq_right t4]
    omega

/-- Core geometry of `subtractSelection`: a cell lies in some returned band
iff it lies in `original` and outside `toRemove`. -/
theorem subtractSelection_cells (a b : SMArea) (r c : Int) :
    (SelMgr.subtractSelection a b).any (SelMgr.pureCellIn r c) = true ↔
      (SelMgr.pureCellIn r c a = true ∧ SelMgr.pureCellIn r c b = false) := by
  rw [← subtract_sortArea, ← pureCellIn_sortArea r c a, ← pureCellIn_sortArea r c b]
  have h1 : ∀ v, (sortArea a).endRow = .num v →
      (sortArea a).start.row ≤ v := by
    rcases a with ⟨⟨x, y⟩, er, ec⟩
    cases er <;> simp [sortArea, SelMgr.smin, SelMgr.smax]
  have h2 : ∀ v, (sortArea a).endCol = .num v →
      (sortArea a).start.col ≤ v := by
    rcases a with ⟨⟨x, y⟩, er, ec⟩
    cases ec <;> simp [sortArea, SelMgr.smin, SelMgr.smax]
  have h3 : ∀ v, (sortArea b).endRow = .num v →
      (sortArea b).start.row ≤ v := by
    rcases b with ⟨⟨x, y⟩, er, ec⟩
    cases er <;> simp [sortArea, SelMgr.smin, SelMgr.smax]
  have h4 : ∀ v, (sortArea b).endCol = .num v →
      (sortArea b).start.col ≤ v := by
    rcases b with ⟨⟨x, y⟩, er, ec⟩
    cases ec <;> simp [sortArea, SelMgr.smin, SelMgr.smax]
  have := subtract_cells_sorted (sortArea a).start.row (sortArea a).start.col
    (sortArea b).start.row (sortArea b).start.col (sortArea a).endRow
    (sortArea a).endCol (sortArea b).endRow (sortArea b).endCol r c h1 h2 h3 h4
  simpa using this

theorem subtractSelection_length (a b : SMArea) :
    (SelMgr.subtractSelection a b).length ≤ 4 := by
  simp only [SelMgr.subtractSelection]
  cases h1 : SelMgr.smax b.start.row b.endRow <;>
    cases h2 : SelMgr.smax b.start.col b.endCol <;>
      split_ifs <;> simp

/-- C2: when the bounds of `toRemove` do not exceed the infinite bounds of `original`,
`subtractSelection` returns at most four areas; their cells together with the
cells of `original ∩ toRemove` are exactly the cells of `original`, and no
returned cell lies in `toRemove`.  (The proof does not actually need the
precondition: the conclusion holds for all area pairs.) -/
theorem subtractSelection_spec (a b : SMArea)
    (hrow : SelMgr.smax b.start.row b.endRow = .inf →
      SelMgr.smax a.start.row a.endRow = .inf)
    (hcol : SelMgr.smax b.start.col b.endCol = .inf →
      SelMgr.smax a.start.col a.endCol = .inf) :
    (SelMgr.subtractSelection a b).length ≤ 4 ∧
    (∀ r c, ((SelMgr.subtractSelection a b).any (SelMgr.pureCellIn r c) = true ∨
        (SelMgr.pureCellIn r c a = true ∧ SelMgr.pureCellIn r c b = true)) ↔
      SelMgr.pureCellIn r c a = true) ∧
    (∀ r c, ¬((SelMgr.subtractSelection a b).any (SelMgr.pureCellIn r c) = true ∧
        SelMgr.pureCellIn r c b = true)) := by
  refine ⟨subtractSelection_length a b, ?_, ?_⟩
  · intro r c
    have h := subtractSelection_cells a b r c
    constructor
    · rintro (hany | ⟨ha, _⟩)
      · exact (h.mp hany).1
      · exact ha
    · intro ha
      cases hb : SelMgr.pureCellIn r c b
      · exact Or.inl (h.mpr ⟨ha, hb⟩)
      · exact Or.inr ⟨ha, rfl⟩
  · intro r c
    rintro ⟨hany, hb⟩
    have := (subtractSelection_cells a b r c).mp hany
    rw [hb] at this
    exact absurd this.2 (by simp)

/-- Witness for `subtractSelection_spec`: subtracting the 1×1 area at (1,1)
from the 3×3 area at (0,0)–(2,2). -/
theorem subtractSelection_spec_witness :
    (SelMgr.subtractSelection ⟨⟨0, 0⟩, .num 2, .num 2⟩
      ⟨⟨1, 1⟩, .num 1, .num 1⟩).length ≤ 4 ∧
    ¬((SelMgr.subtractSelection ⟨⟨0, 0⟩, .num 2, .num 2⟩
        ⟨⟨1, 1⟩, .num 1, .num 1⟩).any (SelMgr.pureCellIn 1 1) = true ∧
      SelMgr.pureCellIn 1 1 ⟨⟨1, 1⟩, .num 1, .num 1⟩ = true) := by
  have h := subtractSelection_spec ⟨⟨0, 0⟩, .num 2, .num 2⟩
    ⟨⟨1, 1⟩, .num 1, .num 1⟩ (by decide) (by decide)
  exact ⟨h.1, h.2.2 1 1⟩

theorem mem_intRange {lo hi x : Int} :
    x ∈ SelMgr.intRange lo hi ↔ lo ≤ x ∧ x ≤ hi := by
  unfold SelMgr.intRange
  simp only [List.mem_map, List.mem_range]
  constructor
  · rintro ⟨k, hk, rfl⟩
    omega
  · rintro ⟨h1, h2⟩
    exact ⟨(x - lo).toNat, by omega, by omega⟩

/-- C9: `isSelected` returns `false` for every cell outside the grid bounds
(negative row/col, or row/col at or past a finite grid size), for every
selection list. -/
theorem isSelected_out_of_bounds (numRows numCols : MaybeInfNumber)
    (selections : List SMArea) (cell : Cell)
    (h : cell.row < 0 ∨ cell.col < 0 ∨
      (∃ v, numRows = .num v ∧ cell.row ≥ v) ∨
      (∃ v, numCols = .num v ∧ cell.col ≥ v)) :
    SelMgr.isSelected numRows numCols selections cell = false := by
  unfold SelMgr.isSelected
  rcases h with h | h | ⟨v, hv, hge⟩ | ⟨v, hv, hge⟩ <;> simp_all

/-- Witness for `isSelected_out_of_bounds`: the cell (5,0) on a 3×3 grid with a
grid-covering selection is reported unselected. -/
theorem isSelected_out_of_bounds_witness :
    SelMgr.isSelected (.num 3) (.num 3)
      [⟨⟨0, 0⟩, .num 5, .num 5⟩] ⟨5, 0⟩ = false :=
  isSelected_out_of_bounds (.num 3) (.num 3) [⟨⟨0, 0⟩, .num 5, .num 5⟩] ⟨5, 0⟩
    (Or.inr (Or.inr (Or.inl ⟨3, rfl, by decide⟩)))

/-- C8 counterexample: the degenerate area with `start = (1,1)` and
`end = (0,0)` has finite ends, and its (min/max-normalized) cell set contains
`(0,0)`, yet `getCellsWithData` returns the empty list — so for this finite
area the function does not return the cells of the area. -/
theorem getCellsWithData_reversed_area_empty :
    SelMgr.getCellsWithData ⟨⟨1, 1⟩, .num 0, .num 0⟩ = .ok [] ∧
      SelMgr.pureCellIn 0 0 ⟨⟨1, 1⟩, .num 0, .num 0⟩ = true := by
  constructor
  · rfl
  · decide

/-- C8 amended: `getCellsWithData(area)` raises "Cannot iterate over infinite
selections" iff the end row or end column of the area is infinite; for every area
with finite ends it raises no error, and — provided the area is normalized
(`start.row ≤ end.row`, `start.col ≤ end.col`) — the returned list holds
exactly the cells of the area. -/
theorem getCellsWithData_spec (area : SMArea) :
    ((∃ e, SelMgr.getCellsWithData area = .error e) ↔
      (area.endRow = .inf ∨ area.endCol = .inf)) ∧
    (∀ er ec, area.endRow = .num er → area.endCol = .num ec →
      ∃ l, SelMgr.getCellsWithData area = .ok l ∧
        (area.start.row ≤ er → area.start.col ≤ ec →
          ∀ r c, (Cell.mk r c ∈ l ↔ SelMgr.pureCellIn r c area = true))) := by
  constructor
  · unfold SelMgr.getCellsWithData
    match h1 : area.endRow, h2 : area.endCol with
    | .inf, _ => simp
    | .num er, .inf => simp
    | .num er, .num ec => simp
  · intro er ec h1 h2
    refine ⟨(SelMgr.intRange area.start.row er).flatMap
      (fun r => (SelMgr.intRange area.start.col ec).map (fun c => ⟨r, c⟩)), ?_, ?_⟩
    · unfold SelMgr.getCellsWithData
      rw [h1, h2]
    · intro hr hc r c
      have hsr : SelMgr.smin area.start.row area.endRow = area.start.row := by
        rw [h1]; simp [SelMgr.smin]; omega
      have hup : SelMgr.smax area.start.row area.endRow = .num er := by
        rw [h1]; simp [SelMgr.smax]; omega
      have hsc : SelMgr.smin area.start.col area.endCol = area.start.col := by
        rw [h2]; simp [SelMgr.smin]; omega
      have hupc : SelMgr.smax area.start.col area.endCol = .num ec := by
        rw [h2]; simp [SelMgr.smax]; omega
      unfold SelMgr.pureCellIn
      rw [hsr, hup, hsc, hupc]
      simp only [List.mem_flatMap, List.mem_map]
      constructor
      · rintro ⟨r', hr', c', hc', heq⟩
        cases heq
        rcases mem_intRange.mp hr' with ⟨a1, a2⟩
        rcases mem_intRange.mp hc' with ⟨b1, b2⟩
        simp only [Bool.and_eq_true, decide_eq_true_eq]
        exact ⟨⟨⟨by omega, by omega⟩, by omega⟩, by omega⟩
      · intro h
        simp only [Bool.and_eq_true, decide_eq_true_eq] at h
        obtain ⟨⟨⟨u1, u2⟩, u3⟩, u4⟩ := h
        exact ⟨r, mem_intRange.mpr ⟨u1, u2⟩, c, mem_intRange.mpr ⟨u3, u4⟩, rfl⟩

/-- Witness for `getCellsWithData_spec`: on the concrete 2×2 area from (0,0) to
(1,1) the function succeeds and its list contains the cell (1,0). -/
theorem getCellsWithData_spec_witness :
    ∃ l, SelMgr.getCellsWithData ⟨⟨0, 0⟩, .num 1, .num 1⟩ = .ok l ∧
      Cell.mk 1 0 ∈ l := by
  obtain ⟨l, hl, hmem⟩ :=
    (getCellsWithData_spec ⟨⟨0, 0⟩, .num 1, .num 1⟩).2 1 1 rfl rfl
  exact ⟨l, hl, (hmem (by decide) (by decide) 1 0).mpr (by decide)⟩

/-- C6: during a fill-handle drag, `getFillHandleSelection` extends along
exactly the axis described by the claim: the column axis for an infinite base
row end, the row axis for an infinite base column end, and otherwise the axis
of the larger absolute delta from the anchor corner, ties favoring rows. -/
theorem getFillHandleSelection_axis (numRows numCols : MaybeInfNumber)
    (base : SMArea) (cell : Cell) :
    fillAxisOf (SelMgr.getFillHandleSelection numRows numCols base cell) =
      some (claimedFillAxis base cell) := by
  rcases base with ⟨⟨sr, sc⟩, ber, bec⟩
  cases ber <;> cases bec <;>
    simp only [SelMgr.getFillHandleSelection, claimedFillAxis] <;>
    split_ifs <;>
    simp [fillAxisOf, axisOfDir]

theorem mergeLoop_covers (rest : List Ivl) (last : Ivl) (x : Int)
    (h : coversPt (SelMgr.mergeLoop last rest) x) : coversPt (last :: rest) x := by
  induction rest generalizing last with
  | nil =>
    simpa [SelMgr.mergeLoop] using h
  | cons cur rest ih =>
    rw [SelMgr.mergeLoop] at h
    split_ifs at h with hcond
    · have h' := ih _ h
      rcases h' with ⟨iv, hmem, hs, he⟩
      rcases List.mem_cons.mp hmem with rfl | hmem'
      · by_cases hlast : (match last.stop with
            | MaybeInfNumber.inf => True
            | MaybeInfNumber.num v => x ≤ v)
        · exact ⟨last, by simp, hs, hlast⟩
        · refine ⟨cur, by simp, ?_, ?_⟩
          · rcases hstop : last.stop with v | _
            · rw [hstop] at hcond hlast
              simp only [decide_eq_true_eq] at hcond
              simp only [] at hlast
              omega
            · rw [hstop] at hlast
              simp at hlast
          · rcases hstop : last.stop with v | _
            · rw [hstop] at hlast
              simp only [] at hlast
              rcases hcur : cur.stop with u | _
              · rw [hcur, hstop] at he
                simp only [SelMgr.maxMaybeInf] at he
                omega
              · simp
            · rw [hstop] at hlast
              simp at hlast
      · exact ⟨iv, by simp [hmem'], hs, he⟩
    · rcases h with ⟨iv, hmem, hs, he⟩
      rcases List.mem_cons.mp hmem with rfl | hmem'
      · exact ⟨iv, by simp, hs, he⟩
      · have h' := ih _ ⟨iv, hmem', hs, he⟩
        rcases h' with ⟨jv, hjmem, hjs, hje⟩
        rcases List.mem_cons.mp hjmem with rfl | hj'
        · exact ⟨jv, by simp, hjs, hje⟩
        · exact ⟨jv, by simp [hj'], hjs, hje⟩

theorem mergeIntervals_covers (l : List Ivl) (x : Int)
    (h : coversPt (SelMgr.mergeIntervals l) x) : coversPt l x := by
  have hperm : List.Perm (List.insertionSort (fun (a b : Ivl) => a.start ≤ b.start) l) l :=
    List.perm_insertionSort _ l
  cases hsort : List.insertionSort (fun (a b : Ivl) => a.start ≤ b.start) l with
  | nil =>
    simp only [SelMgr.mergeIntervals, hsort] at h
    rcases h with ⟨iv, hmem, _⟩
    simp at hmem
  | cons y ys =>
    simp only [SelMgr.mergeIntervals, hsort] at h
    rw [hsort] at hperm
    obtain ⟨iv, hmem, hs, he⟩ := mergeLoop_covers ys y x h
    exact ⟨iv, hperm.mem_iff.mp hmem, hs, he⟩

theorem coversPt_getIntervals (numRows numCols : MaybeInfNumber)
    (selections : List SMArea) (i x : Int)
    (h : coversPt
      (SelMgr.getIntervalsForIndex numRows numCols selections i .row) x) :
    ∃ sel ∈ selections,
      SelMgr.cellInSelection numRows numCols ⟨i, x⟩ sel = true := by
  rcases h with ⟨iv, hmem, hs, he⟩
  rw [SelMgr.getIntervalsForIndex] at hmem
  obtain ⟨sel, hsel, hf⟩ := List.mem_filterMap.mp hmem
  refine ⟨sel, hsel, ?_⟩
  simp only [] at hf
  split_ifs at hf with hcond
  · obtain rfl : Ivl.mk (SelMgr.smin sel.start.col sel.endCol)
        (SelMgr.normalizeEndBound (SelMgr.smax sel.start.col sel.endCol)
          numCols) = iv := by
      exact Option.some.inj hf
    simp only [Bool.and_eq_true, decide_eq_true_eq] at hcond
    simp only [SelMgr.cellInSelection, Bool.and_eq_true, decide_eq_true_eq]
    refine ⟨⟨⟨?_, ?_⟩, ?_⟩, ?_⟩
    · exact hcond.1
    · exact hcond.2
    · exact hs
    · have he' : (match SelMgr.normalizeEndBound
          (SelMgr.smax sel.start.col sel.endCol) numCols with
          | MaybeInfNumber.inf => True
          | MaybeInfNumber.num v => x ≤ v) := he
      rcases hne : SelMgr.normalizeEndBound
          (SelMgr.smax sel.start.col sel.endCol) numCols with u | _
      · rw [hne] at he'
        simpa using he'
      · rfl

/-- C5 counterexample: on a 1×1 grid with the single selection from (0,−1) to
(0,0), every in-grid cell of row 0 (namely (0,0)) is selected, yet
`isWholeRowSelected(0)` returns `false`: the gathered interval starts at −1
instead of 0, so the merged interval is not `[0, numCols)` — refuting
"returns true iff every cell of row i is selected". -/
theorem isWholeRowSelected_not_all_cells :
    SelMgr.cellInSelection (.num 1) (.num 1) ⟨0, 0⟩
        ⟨⟨0, -1⟩, .num 0, .num 0⟩ = true ∧
      SelMgr.isWholeRowSelected (.num 1) (.num 1)
        [⟨⟨0, -1⟩, .num 0, .num 0⟩] 0 = false := by
  constructor
  · decide
  · decide

/-- C5 amended: `isWholeRowSelected(i)` returns true iff the merged
opposite-axis intervals of the selections touching row `i` form a single
interval that starts at 0 and reaches at least `numCols − 1` (an infinite end
for an infinite column count); when it returns true, every in-grid cell of
row `i` lies in some selection.  (The converse of the second part fails for
selections reaching outside the grid; see the counterexample.) -/
theorem isWholeRowSelected_spec (numRows numCols : MaybeInfNumber)
    (selections : List SMArea) (i : Int) :
    (SelMgr.isWholeRowSelected numRows numCols selections i = true ↔
      SelMgr.intervalsSpanFullRange
        (SelMgr.mergeIntervals
          (SelMgr.getIntervalsForIndex numRows numCols selections i .row))
        numCols = true) ∧
    (SelMgr.isWholeRowSelected numRows numCols selections i = true →
      ∀ c : Int, 0 ≤ c → (∀ w, numCols = .num w → c ≤ w - 1) →
        ∃ sel ∈ selections,
          SelMgr.cellInSelection numRows numCols ⟨i, c⟩ sel = true) := by
  constructor
  · exact Iff.rfl
  · intro hw c hc0 hcw
    apply coversPt_getIntervals
    apply mergeIntervals_covers
    unfold SelMgr.isWholeRowSelected at hw
    rcases hm : SelMgr.mergeIntervals
        (SelMgr.getIntervalsForIndex numRows numCols selections i .row) with
      _ | ⟨iv, rest⟩
    · rw [hm] at hw
      simp [SelMgr.intervalsSpanFullRange] at hw
    · rw [hm] at hw
      cases rest with
      | cons _ _ =>
        simp [SelMgr.intervalsSpanFullRange] at hw
      | nil =>
        refine ⟨iv, by simp [hm], ?_, ?_⟩
        · rcases numCols with w | _
          · simp only [SelMgr.intervalsSpanFullRange, Bool.and_eq_true,
              decide_eq_true_eq] at hw
            omega
          · simp only [SelMgr.intervalsSpanFullRange, Bool.and_eq_true,
              decide_eq_true_eq] at hw
            omega
        · rcases numCols with w | _
          · simp only [SelMgr.intervalsSpanFullRange, Bool.and_eq_true,
              decide_eq_true_eq] at hw
            have hcw' := hcw w rfl
            rcases hstop : iv.stop with u | _
            · rw [hstop] at hw
              simp only [gte_num_num, decide_eq_true_eq] at hw
              simp only []
              omega
            · simp
          · simp only [SelMgr.intervalsSpanFullRange, Bool.and_eq_true] at hw
            rcases hstop : iv.stop with u | _
            · rw [hstop] at hw
              simp at hw
            · simp

/-- Witness for `isWholeRowSelected_spec`: on a 2×2 grid fully covered by one
selection, row 0 is whole-row-selected and the cell (0,1) is covered. -/
theorem isWholeRowSelected_spec_witness :
    ∃ sel ∈ [SMArea.mk ⟨0, 0⟩ (.num 1) (.num 1)],
      SelMgr.cellInSelection (.num 2) (.num 2) ⟨0, 1⟩ sel = true := by
  have h := (isWholeRowSelected_spec (.num 2) (.num 2)
    [⟨⟨0, 0⟩, .num 1, .num 1⟩] 0).2
  exact h (by decide) 1 (by decide) (by intro w hw; cases hw; decide)

theorem Except_ok_bind {ε α β : Type} (a : α) (f : α → Except ε β) :
    ((Except.ok a : Except ε α) >>= f) = f a := rfl

theorem Except_error_bind {ε α β : Type} (e : ε) (f : α → Except ε β) :
    ((Except.error e : Except ε α) >>= f) = .error e := rfl

theorem applyPatches_append (s : SelectionManagerState)
    (l1 l2 : List StatePatch) :
    SelMgr.applyPatches s (l1 ++ l2) =
      match SelMgr.applyPatches s l1 with
      | .ok s' => SelMgr.applyPatches s' l2
      | .error e => .error e := by
  unfold SelMgr.applyPatches
  induction l1 generalizing s with
  | nil => rfl
  | cons p l1 ih =>
    simp only [List.cons_append, List.foldlM_cons]
    cases h : SelMgr.applyPatch s p with
    | ok s' =>
      rw [Except_ok_bind, Except_ok_bind]
      exact ih s'
    | error e =>
      rw [Except_error_bind, Except_error_bind]

theorem findIdx?_some_bound {α : Type} (p : α → Bool) (l : List α) :
    ∀ s i, List.findIdx? p l s = some i → s ≤ i ∧ i - s < l.length := by
  induction l with
  | nil => intro s i h; simp [List.findIdx?] at h
  | cons a as ih =>
    intro s i h
    rw [List.findIdx?_cons] at h
    split_ifs at h with hp
    · cases h
      simp
    · obtain ⟨h1, h2⟩ := ih (s + 1) i h
      constructor
      · omega
      · simp only [List.length_cons]
        omega

theorem prefixMatches_append (prev next : List SMArea) (last : SMArea)
    (hlen : next.length = prev.length + 1)
    (hpre : SelMgr.prefixMatches prev next = true)
    (hlast : next[next.length - 1]? = some last) :
    prev ++ [last] = next := by
  induction prev generalizing next with
  | nil =>
    cases next with
    | nil => simp at hlen
    | cons b bs =>
      cases bs with
      | nil =>
        simp at hlast
        simp [hlast]
      | cons c cs => simp at hlen
  | cons a as ih =>
    cases next with
    | nil => simp at hlen
    | cons b bs =>
      simp only [SelMgr.prefixMatches, Bool.and_eq_true, decide_eq_true_eq] at hpre
      obtain ⟨rfl, hpre'⟩ := hpre
      have hlen' : bs.length = as.length + 1 := by
        simpa using hlen
      have hlast' : bs[bs.length - 1]? = some last := by
        have hne : bs.length - 1 + 1 = bs.length := by omega
        have : (a :: bs)[bs.length - 1 + 1]? = bs[bs.length - 1]? := by
          simp
        rw [← this, hne]
        simpa using hlast
      have := ih bs hlen' hpre' hlast'
      simp [this]

theorem removalAligns_eraseIdx (prev next : List SMArea) (ri : Nat)
    (hlen : next.length + 1 = prev.length) (hri : ri < prev.length)
    (halign : SelMgr.removalAligns prev next ri = true) :
    prev.eraseIdx ri = next := by
  have halign' : ∀ i, i < next.length →
      next[i]? = prev[if i < ri then i else i + 1]? := by
    intro i hi
    have h' := List.all_eq_true.mp halign i (List.mem_range.mpr hi)
    exact of_decide_eq_true h'
  apply List.ext_getElem?
  intro n
  rw [List.getElem?_eraseIdx]
  by_cases hn : n < next.length
  · rw [halign' n hn]
    split_ifs <;> rfl
  · have h1 : next[n]? = none := List.getElem?_eq_none (by omega)
    rw [h1]
    split_ifs with h2
    · exfalso
      omega
    · exact List.getElem?_eq_none (by omega)

theorem applyPatches_nil (st : SelectionManagerState) :
    SelMgr.applyPatches st [] = .ok st := rfl

theorem applyPatches_single (st : SelectionManagerState) (p : StatePatch) :
    SelMgr.applyPatches st [p] = SelMgr.applyPatch st p := by
  unfold SelMgr.applyPatches
  simp only [List.foldlM_cons, List.foldlM_nil]
  cases SelMgr.applyPatch st p <;> rfl

theorem applyPatches_append_ok (s st : SelectionManagerState)
    (l1 l2 : List StatePatch) (h : SelMgr.applyPatches s l1 = .ok st) :
    SelMgr.applyPatches s (l1 ++ l2) = SelMgr.applyPatches st l2 := by
  rw [applyPatches_append, h]

theorem seg_hasFocus (c : Prop) [Decidable c] (st : SelectionManagerState)
    (v : Bool) (hc : c → st.hasFocus = v) :
    SelMgr.applyPatches st (if c then [] else [createPatch.setHasFocus v]) =
      .ok { st with hasFocus := v } := by
  split_ifs with h
  · rw [applyPatches_nil, ← hc h]
  · rw [applyPatches_single]
    rfl

theorem seg_isSelecting (c : Prop) [Decidable c] (st : SelectionManagerState)
    (v : IsSelecting) (hc : c → st.isSelecting = v) :
    SelMgr.applyPatches st (if c then [] else [createPatch.setIsSelecting v]) =
      .ok { st with isSelecting := v } := by
  split_ifs with h
  · rw [applyPatches_nil, ← hc h]
  · rw [applyPatches_single]
    rfl

theorem seg_isEditing (c : Prop) [Decidable c] (st : SelectionManagerState)
    (v : IsEditing) (hc : c → st.isEditing = v) :
    SelMgr.applyPatches st (if c then [] else [createPatch.setIsEditing v]) =
      .ok { st with isEditing := v } := by
  split_ifs with h
  · rw [applyPatches_nil, ← hc h]
  · rw [applyPatches_single]
    rfl

theorem seg_isHovering (c : Prop) [Decidable c] (st : SelectionManagerState)
    (v : IsHovering) (hc : c → st.isHovering = v) :
    SelMgr.applyPatches st (if c then [] else [createPatch.setIsHovering v]) =
      .ok { st with isHovering := v } := by
  split_ifs with h
  · rw [applyPatches_nil, ← hc h]
  · rw [applyPatches_single]
    rfl

theorem seg_selections (prev next : List SMArea) (st : SelectionManagerState)
    (hst : st.selections = prev) :
    SelMgr.applyPatches st
        (if prev = next then [] else SelMgr.selectionsDiffPatches prev next) =
      .ok { st with selections := next } := by
  split_ifs with h
  · subst h
    rw [applyPatches_nil, ← hst]
  · unfold SelMgr.selectionsDiffPatches
    split_ifs with h1 h2 h3
    · rw [applyPatches_single]
      have hn : next = [] := List.length_eq_zero.mp h1.1
      subst hn
      rfl
    · cases hl : next[next.length - 1]? with
      | some last =>
        rw [applyPatches_single]
        have happ := prefixMatches_append prev next last h2.1 h2.2 hl
        show (Except.ok { st with selections := st.selections ++ [last] } :
            Except String SelectionManagerState) =
          Except.ok { st with selections := next }
        rw [hst, happ]
      | none =>
        exfalso
        have hlen := List.getElem?_eq_none_iff.mp hl
        omega
    · split
      · rename_i ri hf
        split_ifs with h4
        · rw [applyPatches_single]
          have hf' : List.findIdx?
              (fun pe => !(next.any (fun sel => decide (sel = pe)))) prev =
                some ri := hf
          have hb := (findIdx?_some_bound _ prev 0 ri hf').2
          have her := removalAligns_eraseIdx prev next ri h3.1 (by omega) h4
          show (Except.ok { st with selections := st.selections.eraseIdx ri } :
              Except String SelectionManagerState) =
            Except.ok { st with selections := next }
          rw [hst, her]
        · rw [applyPatches_single]
          rfl
      · rename_i hf
        rw [applyPatches_single]
        rfl
    · rw [applyPatches_single]
      rfl

/-- C3: round trip — applying the patches produced by `createPatches s s2`
to `s` reproduces `s2` exactly (and never raises a patch error). -/
theorem applyPatches_createPatches (s s2 : SelectionManagerState) :
    SelMgr.applyPatches s (SelMgr.createPatches s s2) = .ok s2 := by
  unfold SelMgr.createPatches
  simp only [List.append_assoc]
  have hA := seg_hasFocus (s.hasFocus = s2.hasFocus) s s2.hasFocus (fun h => h)
  rw [applyPatches_append_ok _ _ _ _ hA]
  have hB := seg_selections s.selections s2.selections
    { s with hasFocus := s2.hasFocus } rfl
  rw [applyPatches_append_ok _ _ _ _ hB]
  have hC := seg_isSelecting (s.isSelecting = s2.isSelecting)
    { { s with hasFocus := s2.hasFocus } with selections := s2.selections }
    s2.isSelecting (fun h => h)
  rw [applyPatches_append_ok _ _ _ _ hC]
  have hD := seg_isEditing (s.isEditing = s2.isEditing)
    { { { s with hasFocus := s2.hasFocus } with selections := s2.selections }
      with isSelecting := s2.isSelecting } s2.isEditing (fun h => h)
  rw [applyPatches_append_ok _ _ _ _ hD]
  have hE := seg_isHovering (s.isHovering = s2.isHovering)
    { { { { s with hasFocus := s2.hasFocus } with
          selections := s2.selections } with
        isSelecting := s2.isSelecting } with isEditing := s2.isEditing }
    s2.isHovering (fun h => h)
  rw [hE]

theorem selectionsDiffPatches_fields (prev next : List SMArea) :
    List.Sublist ((SelMgr.selectionsDiffPatches prev next).map patchRootField)
      [RootField.selections] := by
  unfold SelMgr.selectionsDiffPatches
  split_ifs
  · simp [createPatch.clearSelections, patchRootField, pathRoot]
  · split
    · simp [createPatch.addSelection, patchRootField, pathRoot]
    · simp
  · split
    · split_ifs
      · simp [createPatch.removeSelection, patchRootField, pathRoot]
      · simp [createPatch.setSelections, patchRootField, pathRoot]
    · simp [createPatch.setSelections, patchRootField, pathRoot]
  · simp [createPatch.setSelections, patchRootField, pathRoot]

theorem if_nil_single_fields {c : Prop} [Decidable c] (p : StatePatch)
    (f : RootField) (hp : patchRootField p = f) :
    List.Sublist ((if c then [] else [p]).map patchRootField) [f] := by
  split_ifs <;> simp [hp]

/-- C10: `createPatches` emits at most one patch per root field, in the fixed
order hasFocus, selections, isSelecting, isEditing, isHovering; hence at most
five patches in total and at most one patch addressing the selections array. -/
theorem createPatches_per_field (s s2 : SelectionManagerState) :
    List.Sublist ((SelMgr.createPatches s s2).map patchRootField)
      [RootField.hasFocus, RootField.selections, RootField.isSelecting,
        RootField.isEditing, RootField.isHovering] ∧
    (SelMgr.createPatches s s2).length ≤ 5 ∧
    ((SelMgr.createPatches s s2).filter
        (fun p => decide (patchRootField p = RootField.selections))).length ≤ 1 := by
  have hsub : List.Sublist ((SelMgr.createPatches s s2).map patchRootField)
      [RootField.hasFocus, RootField.selections, RootField.isSelecting,
        RootField.isEditing, RootField.isHovering] := by
    unfold SelMgr.createPatches
    simp only [List.map_append, List.append_assoc]
    have hA := if_nil_single_fields (c := s.hasFocus = s2.hasFocus)
      (createPatch.setHasFocus s2.hasFocus) RootField.hasFocus rfl
    have hB : List.Sublist ((if s.selections = s2.selections then []
        else SelMgr.selectionsDiffPatches s.selections s2.selections).map
          patchRootField) [RootField.selections] := by
      split_ifs
      · simp
      · exact selectionsDiffPatches_fields s.selections s2.selections
    have hC := if_nil_single_fields (c := s.isSelecting = s2.isSelecting)
      (createPatch.setIsSelecting s2.isSelecting) RootField.isSelecting rfl
    have hD := if_nil_single_fields (c := s.isEditing = s2.isEditing)
      (createPatch.setIsEditing s2.isEditing) RootField.isEditing rfl
    have hE := if_nil_single_fields (c := s.isHovering = s2.isHovering)
      (createPatch.setIsHovering s2.isHovering) RootField.isHovering rfl
    exact hA.append (hB.append (hC.append (hD.append hE)))
  refine ⟨hsub, ?_, ?_⟩
  · have := hsub.length_le
    simpa using this
  · have hc := hsub.countP_le (fun f => decide (f = RootField.selections))
    rw [List.countP_map] at hc
    have h1 : List.countP (fun f => decide (f = RootField.selections))
        [RootField.hasFocus, RootField.selections, RootField.isSelecting,
          RootField.isEditing, RootField.isHovering] = 1 := rfl
    rw [h1] at hc
    rw [← List.countP_eq_length_filter]
    exact le_trans (le_of_eq (by rfl)) hc

/-- C4 (failing input): in controlled mode, `editCell(3,4)` is NOT fully
rolled back: the four fields `setState` assigns return to the snapshot, but
`isEditing` stays `cell(3,4)` because `setState` omits it — while the
requested-state listeners do receive the prospective next state. -/
theorem controlled_editCell_keeps_isEditing :
    ∃ m' n, SelMgr.editCell mgr0 3 4 none = .ok (m', some n) ∧
      m'.state.isEditing = IsEditing.cell 3 4 none ∧
      m'.prevState.isEditing = IsEditing.none ∧
      m'.state.hasFocus = m'.prevState.hasFocus ∧
      m'.state.selections = m'.prevState.selections ∧
      m'.state.isSelecting = m'.prevState.isSelecting ∧
      m'.state.isHovering = m'.prevState.isHovering ∧
      n = SelMgr.Notice.requested
        { m'.prevState with isEditing := IsEditing.cell 3 4 none } := by
  exact ⟨_, _, rfl, rfl, rfl, rfl, rfl, rfl, rfl, rfl⟩

/-- C7 counterexample: with a cell being edited, selections committed and
focus held, Escape only cancels editing: selections and focus survive,
contradicting "clears selections, editing state, and focus in one step". -/
theorem escape_editing_keeps_selections :
    (SelMgr.escapeKeyDown
        ⟨true, [⟨⟨0, 0⟩, .num 1, .num 1⟩], .none, .cell 0 0 none, .none⟩).1 =
      ⟨true, [⟨⟨0, 0⟩, .num 1, .num 1⟩], .none, .none, .none⟩ := rfl

/-- C7 amended: when a cell is being edited, Escape only cancels editing (and
notifies); otherwise it cancels any live interaction and clears selections,
editing and focus in one step, and notifies iff the engine was not already
quiescent (no live interaction, empty selections, no focus). -/
theorem escapeKeyDown_spec (s : SelectionManagerState) :
    (∀ r c v, s.isEditing = .cell r c v →
      SelMgr.escapeKeyDown s = ({ s with isEditing := .none }, true)) ∧
    (s.isEditing = .none →
      (SelMgr.escapeKeyDown s).1 =
          { s with isSelecting := .none, selections := [], isEditing := .none, hasFocus := false } ∧
      ((SelMgr.escapeKeyDown s).2 = false ↔
        (s.isSelecting = .none ∧ s.selections = [] ∧ s.hasFocus = false))) := by
  constructor
  · intro r c v h
    simp [SelMgr.escapeKeyDown, h]
  · intro h
    constructor
    · simp [SelMgr.escapeKeyDown, h]
    · simp only [SelMgr.escapeKeyDown, h, Bool.or_eq_false_iff,
        decide_eq_false_iff_not, not_not]
      constructor
      · rintro ⟨⟨⟨h1, h2⟩, _⟩, h4⟩
        exact ⟨h1, h2, h4⟩
      · rintro ⟨h1, h2, h4⟩
        exact ⟨⟨⟨h1, h2⟩, trivial⟩, h4⟩

/-- Witness for `escapeKeyDown_spec`: a focused engine with no selections —
Escape clears focus and does notify. -/
theorem escapeKeyDown_spec_witness :
    (SelMgr.escapeKeyDown ⟨true, [], .none, .none, .none⟩).1 =
      ⟨false, [], .none, .none, .none⟩ ∧
    (SelMgr.escapeKeyDown ⟨true, [], .none, .none, .none⟩).2 = true := by
  have h := (escapeKeyDown_spec ⟨true, [], .none, .none, .none⟩).2 rfl
  refine ⟨h.1, ?_⟩
  cases hb : (SelMgr.escapeKeyDown ⟨true, [], .none, .none, .none⟩).2
  · have := h.2.mp hb
    simp at this
  · rfl

theorem sortedBoundaries_sorted (l : List Int) :
    List.Sorted (fun a b : Int => a < b) (SelMgr.sortedBoundaries l) := by
  have hs : List.Sorted (fun a b : Int => a ≤ b) (SelMgr.sortedBoundaries l) :=
    List.sorted_insertionSort _ _
  have hperm : List.Perm (SelMgr.sortedBoundaries l) l.dedup :=
    List.perm_insertionSort _ _
  have hnd : (SelMgr.sortedBoundaries l).Nodup :=
    (List.Perm.nodup_iff hperm).mpr (List.nodup_dedup l)
  exact List.Pairwise.imp₂ (fun a b hle hne => lt_of_le_of_ne hle hne) hs hnd

theorem mem_sortedBoundaries (l : List Int) (x : Int) :
    x ∈ SelMgr.sortedBoundaries l ↔ x ∈ l := by
  unfold SelMgr.sortedBoundaries
  rw [List.mem_insertionSort, List.mem_dedup]

theorem adjPairs_nil : SelMgr.adjPairs ([] : List Int) = [] := rfl

theorem adjPairs_single (x : Int) : SelMgr.adjPairs [x] = [] := rfl

theorem adjPairs_cons_cons (x y : Int) (l : List Int) :
    SelMgr.adjPairs (x :: y :: l) = (x, y) :: SelMgr.adjPairs (y :: l) := rfl

theorem sorted_head_le (y : Int) (ys : List Int)
    (hs : List.Sorted (fun a b : Int => a < b) (y :: ys)) :
    ∀ x ∈ y :: ys, y ≤ x := by
  intro x hx
  rcases List.mem_cons.mp hx with rfl | hx'
  · exact le_refl x
  · exact le_of_lt ((List.sorted_cons.mp hs).1 x hx')

theorem adjPairs_mem (l : List Int) :
    ∀ p ∈ SelMgr.adjPairs l, p.1 ∈ l ∧ p.2 ∈ l := by
  induction l with
  | nil => simp [adjPairs_nil]
  | cons x xs ih =>
    cases xs with
    | nil => simp [adjPairs_single]
    | cons y ys =>
      intro p hp
      rw [adjPairs_cons_cons] at hp
      rcases List.mem_cons.mp hp with rfl | hp'
      · exact ⟨by simp, by simp⟩
      · have := ih p hp'
        exact ⟨List.mem_cons_of_mem _ this.1, List.mem_cons_of_mem _ this.2⟩

theorem adjPairs_lt (l : List Int)
    (hs : List.Sorted (fun a b : Int => a < b) l) :
    ∀ p ∈ SelMgr.adjPairs l, p.1 < p.2 := by
  induction l with
  | nil => simp [adjPairs_nil]
  | cons x xs ih =>
    cases xs with
    | nil => simp [adjPairs_single]
    | cons y ys =>
      intro p hp
      rw [adjPairs_cons_cons] at hp
      rcases List.mem_cons.mp hp with rfl | hp'
      · exact (List.sorted_cons.mp hs).1 y (by simp)
      · exact ih (List.sorted_cons.mp hs).2 p hp'

theorem adjPairs_left_gap (l : List Int)
    (hs : List.Sorted (fun a b : Int => a < b) l) :
    ∀ p ∈ SelMgr.adjPairs l, ∀ x ∈ l, ∀ t : Int, x ≤ t → t < p.2 → x ≤ p.1 := by
  induction l with
  | nil => simp [adjPairs_nil]
  | cons x0 xs ih =>
    cases xs with
    | nil => simp [adjPairs_single]
    | cons y ys =>
      intro p hp x hx t hxt htp
      rw [adjPairs_cons_cons] at hp
      obtain ⟨hhead, htail⟩ := List.sorted_cons.mp hs
      rcases List.mem_cons.mp hp with rfl | hp'
      · rcases List.mem_cons.mp hx with rfl | hx'
        · exact le_refl x
        · have := sorted_head_le y ys htail x hx'
          omega
      · rcases List.mem_cons.mp hx with rfl | hx'
        · have h1 : y ≤ p.1 := sorted_head_le y ys htail p.1
            (adjPairs_mem _ p hp').1
          have h2 : x < y := hhead y (by simp)
          omega
        · exact ih htail p hp' x hx' t hxt htp

theorem adjPairs_right_gap (l : List Int)
    (hs : List.Sorted (fun a b : Int => a < b) l) :
    ∀ p ∈ SelMgr.adjPairs l, ∀ x ∈ l, ∀ t : Int, p.1 ≤ t → t < x → p.2 ≤ x := by
  induction l with
  | nil => simp [adjPairs_nil]
  | cons x0 xs ih =>
    cases xs with
    | nil => simp [adjPairs_single]
    | cons y ys =>
      intro p hp x hx t hpt htx
      rw [adjPairs_cons_cons] at hp
      obtain ⟨hhead, htail⟩ := List.sorted_cons.mp hs
      rcases List.mem_cons.mp hp with rfl | hp'
      · rcases List.mem_cons.mp hx with rfl | hx'
        · omega
        · exact sorted_head_le y ys htail x hx'
      · rcases List.mem_cons.mp hx with rfl | hx'
        · have h1 : y ≤ p.1 := sorted_head_le y ys htail p.1
            (adjPairs_mem _ p hp').1
          have h2 : x < y := hhead y (by simp)
          omega
        · exact ih htail p hp' x hx' t hpt htx

theorem adjPairs_exists (l : List Int)
    (hs : List.Sorted (fun a b : Int => a < b) l) :
    ∀ x ∈ l, ∀ y ∈ l, ∀ t : Int, x ≤ t → t < y →
      ∃ p ∈ SelMgr.adjPairs l, p.1 ≤ t ∧ t < p.2 := by
  induction l with
  | nil => simp
  | cons x0 xs ih =>
    cases xs with
    | nil =>
      intro x hx y hy t hxt hty
      rcases List.mem_cons.mp hx with rfl | hx'
      · rcases List.mem_cons.mp hy with rfl | hy'
        · omega
        · simp at hy'
      · simp at hx'
    | cons z ys =>
      intro x hx y hy t hxt hty
      obtain ⟨hhead, htail⟩ := List.sorted_cons.mp hs
      by_cases ht : t < z
      · refine ⟨(x0, z), by rw [adjPairs_cons_cons]; simp, ?_, ht⟩
        rcases List.mem_cons.mp hx with rfl | hx'
        · exact hxt
        · have := sorted_head_le z ys htail x hx'
          omega
      · push_neg at ht
        have hy' : y ∈ z :: ys := by
          rcases List.mem_cons.mp hy with rfl | hy'
          · exfalso
            have := hhead z (by simp)
            omega
          · exact hy'
        obtain ⟨p, hp, h1, h2⟩ := ih htail z (by simp) y hy' t ht hty
        exact ⟨p, by rw [adjPairs_cons_cons]; exact List.mem_cons_of_mem _ hp,
          h1, h2⟩

theorem adjPairs_pairwise (l : List Int)
    (hs : List.Sorted (fun a b : Int => a < b) l) :
    List.Pairwise (fun p q : Int × Int => p.2 ≤ q.1) (SelMgr.adjPairs l) := by
  induction l with
  | nil => simp [adjPairs_nil]
  | cons x xs ih =>
    cases xs with
    | nil => simp [adjPairs_single]
    | cons y ys =>
      rw [adjPairs_cons_cons]
      obtain ⟨hhead, htail⟩ := List.sorted_cons.mp hs
      refine List.Pairwise.cons ?_ (ih htail)
      intro q hq
      exact sorted_head_le y ys htail q.1 (adjPairs_mem _ q hq).1

theorem pairwise_flatMap {α β : Type} (R : β → β → Prop) (f : α → List β)
    (l : List α) (h1 : ∀ a ∈ l, List.Pairwise R (f a))
    (h2 : List.Pairwise (fun a a' => ∀ x ∈ f a, ∀ y ∈ f a', R x y) l) :
    List.Pairwise R (l.flatMap f) := by
  induction l with
  | nil => simp
  | cons a as ih =>
    rw [List.flatMap_cons]
    rw [List.pairwise_append]
    obtain ⟨hh, ht⟩ := List.pairwise_cons.mp h2
    refine ⟨h1 a (by simp), ih (fun a' ha' => h1 a' (List.mem_cons_of_mem _ ha')) ht, ?_⟩
    intro x hx y hy
    obtain ⟨a', ha', hya'⟩ := List.mem_flatMap.mp hy
    exact hh a' ha' x hx y hya'

theorem cellIn_normalizeForDecomp (numRows numCols r c : Int) (sel : SMArea) :
    SelMgr.cellInSelection (.num numRows) (.num numCols) ⟨r, c⟩ sel = true ↔
      ((SelMgr.normalizeForDecomp numRows numCols sel).startRow ≤ r ∧
        r ≤ (SelMgr.normalizeForDecomp numRows numCols sel).endRow ∧
        (SelMgr.normalizeForDecomp numRows numCols sel).startCol ≤ c ∧
        c ≤ (SelMgr.normalizeForDecomp numRows numCols sel).endCol) := by
  rcases sel with ⟨⟨sr, sc⟩, er, ec⟩
  cases er <;> cases ec <;>
    simp [SelMgr.cellInSelection, SelMgr.normalizeForDecomp, SelMgr.smin,
      SelMgr.smax, SelMgr.normalizeEndBound, and_assoc] <;>
    tauto

theorem cellIn_region (numRows numCols a b u v r c : Int) (hab : a ≤ b - 1)
    (huv : u ≤ v - 1) :
    SelMgr.cellInSelection (.num numRows) (.num numCols) ⟨r, c⟩
        ⟨⟨a, u⟩, .num (b - 1), .num (v - 1)⟩ = true ↔
      (a ≤ r ∧ r ≤ b - 1 ∧ u ≤ c ∧ c ≤ v - 1) := by
  simp only [SelMgr.cellInSelection, SelMgr.smin, SelMgr.smax,
    SelMgr.normalizeEndBound, Bool.and_eq_true, decide_eq_true_eq, ge_iff_le]
  omega

/-- C1: on a finite grid, `getNonOverlappingSelections` returns areas whose
cell-set union equals the cell-set union of the original selections, and no
two returned areas share a cell. -/
theorem getNonOverlappingSelections_spec (numRows numCols : Int)
    (selections : List SMArea) :
    (∀ r c : Int,
      (SelMgr.getNonOverlappingSelectionsFin numRows numCols selections).any
          (fun a => SelMgr.cellInSelection (.num numRows) (.num numCols) ⟨r, c⟩ a) =
        selections.any
          (fun a => SelMgr.cellInSelection (.num numRows) (.num numCols) ⟨r, c⟩ a)) ∧
    List.Pairwise
      (fun a b => ∀ r c : Int,
        ¬(SelMgr.cellInSelection (.num numRows) (.num numCols) ⟨r, c⟩ a = true ∧
          SelMgr.cellInSelection (.num numRows) (.num numCols) ⟨r, c⟩ b = true))
      (SelMgr.getNonOverlappingSelectionsFin numRows numCols selections) := by
  by_cases hemp : selections.length = 0
  · have hnil : selections = [] := List.length_eq_zero.mp hemp
    subst hnil
    exact ⟨fun r c => rfl, List.Pairwise.nil⟩
  · have hres : SelMgr.getNonOverlappingSelectionsFin numRows numCols selections =
        (SelMgr.adjPairs (SelMgr.decompRows numRows numCols selections)).flatMap
          (fun rp =>
            ((SelMgr.adjPairs (SelMgr.decompCols numRows numCols selections)).filter
                (fun cp => SelMgr.coveredBy
                  (selections.map (SelMgr.normalizeForDecomp numRows numCols)) rp cp)).map
              (fun cp => ⟨⟨rp.1, cp.1⟩, .num (rp.2 - 1), .num (cp.2 - 1)⟩)) := by
      unfold SelMgr.getNonOverlappingSelectionsFin
      rw [if_neg hemp]
    have hsortR := sortedBoundaries_sorted
      ((selections.map (SelMgr.normalizeForDecomp numRows numCols)).flatMap
        (fun s => [s.startRow, s.endRow + 1]))
    have hsortC := sortedBoundaries_sorted
      ((selections.map (SelMgr.normalizeForDecomp numRows numCols)).flatMap
        (fun s => [s.startCol, s.endCol + 1]))
    rw [show SelMgr.sortedBoundaries
        ((selections.map (SelMgr.normalizeForDecomp numRows numCols)).flatMap
          (fun s => [s.startRow, s.endRow + 1])) =
      SelMgr.decompRows numRows numCols selections from rfl] at hsortR
    rw [show SelMgr.sortedBoundaries
        ((selections.map (SelMgr.normalizeForDecomp numRows numCols)).flatMap
          (fun s => [s.startCol, s.endCol + 1])) =
      SelMgr.decompCols numRows numCols selections from rfl] at hsortC
    constructor
    · intro r c
      apply Bool.eq_iff_iff.mpr
      rw [List.any_eq_true, List.any_eq_true]
      constructor
      · rintro ⟨area, hmemA, hcell⟩
        rw [hres] at hmemA
        obtain ⟨rp, hrp, hmm⟩ := List.mem_flatMap.mp hmemA
        obtain ⟨cp, hcpf, rfl⟩ := List.mem_map.mp hmm
        obtain ⟨hcp, hcov⟩ := List.mem_filter.mp hcpf
        have h1 := adjPairs_lt _ hsortR rp hrp
        have h2 := adjPairs_lt _ hsortC cp hcp
        rw [cellIn_region numRows numCols rp.1 rp.2 cp.1 cp.2 r c
          (by omega) (by omega)] at hcell
        simp only [SelMgr.coveredBy, List.any_eq_true, Bool.and_eq_true,
          decide_eq_true_eq] at hcov
        obtain ⟨s, hsmem, hcov4⟩ := hcov
        obtain ⟨sel, hsel, rfl⟩ := List.mem_map.mp hsmem
        refine ⟨sel, hsel, ?_⟩
        rw [cellIn_normalizeForDecomp]
        obtain ⟨⟨⟨c1, c2⟩, c3⟩, c4⟩ := hcov4
        exact ⟨by omega, by omega, by omega, by omega⟩
      · rintro ⟨sel, hsel, hcell⟩
        rw [cellIn_normalizeForDecomp] at hcell
        obtain ⟨hc1, hc2, hc3, hc4⟩ := hcell
        have hsmem : SelMgr.normalizeForDecomp numRows numCols sel ∈
            selections.map (SelMgr.normalizeForDecomp numRows numCols) :=
          List.mem_map_of_mem _ hsel
        have hstartR : (SelMgr.normalizeForDecomp numRows numCols sel).startRow ∈
            SelMgr.decompRows numRows numCols selections :=
          (mem_sortedBoundaries _ _).mpr
            (List.mem_flatMap.mpr ⟨_, hsmem, by simp⟩)
        have hendR : (SelMgr.normalizeForDecomp numRows numCols sel).endRow + 1 ∈
            SelMgr.decompRows numRows numCols selections :=
          (mem_sortedBoundaries _ _).mpr
            (List.mem_flatMap.mpr ⟨_, hsmem, by simp⟩)
        have hstartC : (SelMgr.normalizeForDecomp numRows numCols sel).startCol ∈
            SelMgr.decompCols numRows numCols selections :=
          (mem_sortedBoundaries _ _).mpr
            (List.mem_flatMap.mpr ⟨_, hsmem, by simp⟩)
        have hendC : (SelMgr.normalizeForDecomp numRows numCols sel).endCol + 1 ∈
            SelMgr.decompCols numRows numCols selections :=
          (mem_sortedBoundaries _ _).mpr
            (List.mem_flatMap.mpr ⟨_, hsmem, by simp⟩)
        obtain ⟨rp, hrp, hr1, hr2⟩ := adjPairs_exists _ hsortR _ hstartR _ hendR
          r hc1 (by omega)
        obtain ⟨cp, hcp, hk1, hk2⟩ := adjPairs_exists _ hsortC _ hstartC _ hendC
          c hc3 (by omega)
        have hcov : SelMgr.coveredBy
            (selections.map (SelMgr.normalizeForDecomp numRows numCols)) rp cp = true := by
          simp only [SelMgr.coveredBy, List.any_eq_true, Bool.and_eq_true,
            decide_eq_true_eq]
          refine ⟨_, hsmem, ⟨⟨?_, ?_⟩, ?_⟩, ?_⟩
          · exact adjPairs_left_gap _ hsortR rp hrp _ hstartR r hc1 hr2
          · have := adjPairs_right_gap _ hsortR rp hrp _ hendR r hr1 (by omega)
            omega
          · exact adjPairs_left_gap _ hsortC cp hcp _ hstartC c hc3 hk2
          · have := adjPairs_right_gap _ hsortC cp hcp _ hendC c hk1 (by omega)
            omega
        refine ⟨⟨⟨rp.1, cp.1⟩, .num (rp.2 - 1), .num (cp.2 - 1)⟩, ?_, ?_⟩
        · rw [hres]
          exact List.mem_flatMap.mpr ⟨rp, hrp, List.mem_map.mpr
            ⟨cp, List.mem_filter.mpr ⟨hcp, hcov⟩, rfl⟩⟩
        · have h1 := adjPairs_lt _ hsortR rp hrp
          have h2 := adjPairs_lt _ hsortC cp hcp
          rw [cellIn_region numRows numCols rp.1 rp.2 cp.1 cp.2 r c
            (by omega) (by omega)]
          exact ⟨by omega, by omega, by omega, by omega⟩
    · rw [hres]
      apply pairwise_flatMap
      · intro rp hrp
        rw [List.pairwise_map]
        have hpw : List.Pairwise (fun p q : Int × Int => p.2 ≤ q.1)
            ((SelMgr.adjPairs (SelMgr.decompCols numRows numCols selections)).filter
              (fun cp => SelMgr.coveredBy
                (selections.map (SelMgr.normalizeForDecomp numRows numCols)) rp cp)) :=
          List.Pairwise.sublist (List.filter_sublist _) (adjPairs_pairwise _ hsortC)
        apply List.Pairwise.imp_of_mem ?_ hpw
        intro cp cp' hm hm' hle r c hand
        have hcpm := List.mem_of_mem_filter hm
        have hcpm' := List.mem_of_mem_filter hm'
        have h1 := adjPairs_lt _ hsortR rp hrp
        have h2 := adjPairs_lt _ hsortC cp hcpm
        have h3 := adjPairs_lt _ hsortC cp' hcpm'
        rw [cellIn_region numRows numCols rp.1 rp.2 cp.1 cp.2 r c
          (by omega) (by omega)] at hand
        rw [cellIn_region numRows numCols rp.1 rp.2 cp'.1 cp'.2 r c
          (by omega) (by omega)] at hand
        omega
      · apply List.Pairwise.imp_of_mem ?_ (adjPairs_pairwise _ hsortR)
        intro rp rp' hm hm' hle x hx y hy r c hand
        obtain ⟨cp, hcpf, rfl⟩ := List.mem_map.mp hx
        obtain ⟨cp', hcpf', rfl⟩ := List.mem_map.mp hy
        have hcpm := List.mem_of_mem_filter hcpf
        have hcpm' := List.mem_of_mem_filter hcpf'
        have h1 := adjPairs_lt _ hsortR rp hm
        have h1' := adjPairs_lt _ hsortR rp' hm'
        have h2 := adjPairs_lt _ hsortC cp hcpm
        have h2' := adjPairs_lt _ hsortC cp' hcpm'
        rw [cellIn_region numRows numCols rp.1 rp.2 cp.1 cp.2 r c
          (by omega) (by omega)] at hand
        rw [cellIn_region numRows numCols rp'.1 rp'.2 cp'.1 cp'.2 r c
          (by omega) (by omega)] at hand
        omega
